import Mathlib

/-!
Verification development for the `cblanquera/mcp` ingestion/retrieval core.

The only TypeScript under `src/` is `src/config.ts`, which reads process
environment variables once at module load into exported constants.  The
remaining components (Loader, Chunker, Hasher, Embedder, Store, Retriever)
are specified in `spec.md` but their code is not in the repository, so they
are modelled here from the spec's words; each such definition is marked
`Modelled from the spec:` in its doc comment.
-/

/-! ## Environment and configuration (`src/config.ts`) -/

/-- A process environment: lookup from variable name to optional value. -/
def Env := String → Option String

/-- JavaScript `v || d` on an optional environment value: the default is used
when the variable is unset or bound to the empty string (both are falsy). -/
def jsOr (v : Option String) (d : String) : String :=
  match v with
  | none => d
  | some s => if s = "" then d else s

/-! ### POSIX path model (for `path.join(cwd, ...)`) -/

/-- Split a character list on `/`, keeping empty segments (the semantics of
`String.splitOn "/"`); `cur` is the reversed current segment. -/
def splitSlashAux : List Char → List Char → List String
  | cur, [] => [String.mk cur.reverse]
  | cur, c :: rest =>
    if c = '/' then String.mk cur.reverse :: splitSlashAux [] rest
    else splitSlashAux (c :: cur) rest

/-- Split a string into its `/`-separated segments. -/
def splitSlash (s : String) : List String :=
  splitSlashAux [] s.data

/-- Collapse path segments for an absolute path: empty and `.` segments are
dropped, `..` pops the previous segment (or is dropped at the root), any
other segment is pushed.  `acc` is the reversed output stack. -/
def collapseSegs (acc : List String) : List String → List String
  | [] => acc.reverse
  | s :: rest =>
    if s = "" ∨ s = "." then collapseSegs acc rest
    else if s = ".." then collapseSegs (acc.drop 1) rest
    else collapseSegs (s :: acc) rest

/-- Join segments with `/` separators (no leading or trailing separator). -/
def joinSegs : List String → String
  | [] => ""
  | [s] => s
  | s :: t :: rest => s ++ "/" ++ joinSegs (t :: rest)

/-- Modelled from the spec: Node's `path.posix.normalize` restricted to
absolute inputs (the first argument of every join in `config.ts` is
`process.cwd()`, which is absolute); trailing-separator preservation is
not modelled. -/
def normalizeAbs (p : String) : String :=
  "/" ++ joinSegs (collapseSegs [] (splitSlash p))

/-- Modelled from the spec: Node's `path.posix.join` on two parts, as used by
`config.ts` (`path.join(cwd, process.env.BUILD_DIR || '.build')`): the
non-empty parts are concatenated with `/` and the result normalized. -/
def pathJoin2 (a b : String) : String :=
  let joined := if a = "" then b else if b = "" then a else a ++ "/" ++ b
  if joined = "" then "." else normalizeAbs joined

/-- The explicit configuration value: one field per exported constant of
`src/config.ts`, with the source's names. -/
structure Config where
  cwd : String
  pwd : String
  model : String
  build : String
  repo : String
  host : String
  token : String
deriving Repr, DecidableEq

/-- The module-load initialization of `src/config.ts`: every exported
constant is computed once from the environment (`process.env.X || default`).
`cwd` abstracts `process.cwd()` and `pwd` abstracts
`path.dirname(__dirname)`, both external inputs. -/
def initConfig (cwd pwd : String) (env : Env) : Config where
  cwd := cwd
  pwd := pwd
  model := jsOr (env "EMBEDDING_MODEL") "local"
  build := pathJoin2 cwd (jsOr (env "BUILD_DIR") ".build")
  repo := jsOr (env "GITHUB_REPO") "https://github.com/cblanquera/mcp"
  host := jsOr (env "OPENAI_HOST") "https://api.openai.com/v1"
  token := jsOr (env "OPENAI_KEY") ""

/-- A path `p` is rooted under directory `cwd` when it is `cwd` itself or a
strict descendant (`cwd ++ "/" ++ rest`). -/
def rootedUnder (cwd p : String) : Prop :=
  p = cwd ∨ (cwd ++ "/").data.isPrefixOf p.data = true

instance (cwd p : String) : Decidable (rootedUnder cwd p) := by
  unfold rootedUnder; infer_instance

/-! ## Chunker (spec 4.2) -/

/-- Tokens are the unit of the pluggable deterministic token counter. -/
abbrev Token := String

/-- A document as the Chunker sees it.  Modelled from the spec: block
segmentation and token counting are abstract deterministic capabilities
(spec 4.2 step 1 and Design Notes), so a document body is represented
directly as its sequence of atomic structural blocks, each a list of
tokens; the normalized body is the concatenation of the blocks. -/
structure Doc where
  id : String
  blocks : List (List Token)
deriving Repr, DecidableEq

/-- The normalized body of a document: its blocks' tokens in order. -/
def normalizeBody (d : Doc) : List Token :=
  d.blocks.flatten

/-- Chunk policy as supplied by the pack manifest (integer bounds, possibly
non-positive). -/
structure Policy where
  maxChunkTokens : Int
  overlapTokens : Int
deriving Repr, DecidableEq

/-- A policy that passed validation. -/
structure ValidPolicy where
  maxT : Nat
  ovl : Nat
deriving Repr, DecidableEq

/-- Modelled from the spec: `ChunkPolicyError` (spec 7) — raised when a bound
is non-positive or the overlap is not strictly below the max size. -/
inductive ChunkPolicyError where
  | nonPositiveBound
  | overlapNotBelowMax
deriving Repr, DecidableEq

/-- Modelled from the spec: policy validation (spec 4.2 constraint
`overlap_tokens < max_chunk_tokens`, spec 7 `non-positive bounds`). -/
def validatePolicy (p : Policy) : Except ChunkPolicyError ValidPolicy :=
  if p.maxChunkTokens ≤ 0 ∨ p.overlapTokens ≤ 0 then
    .error .nonPositiveBound
  else if p.overlapTokens < p.maxChunkTokens then
    .ok ⟨p.maxChunkTokens.toNat, p.overlapTokens.toNat⟩
  else
    .error .overlapNotBelowMax

/-- The last `n` elements of a list. -/
def takeLast (n : Nat) (l : List Token) : List Token :=
  l.drop (l.length - n)

/-- Modelled from the spec: the greedy chunking loop (spec 4.2 steps 2-4).
Each produced pair is `(seed, own)`: the overlap seed copied from the
previous chunk and the chunk's own block content.  Blocks are accumulated
until the next block would exceed `maxT`; an oversized block is emitted as
its own chunk with no overlap padding around it; on closing a chunk the
next one is seeded with the trailing `ovl` tokens of its text. -/
def goChunks (maxT ovl : Nat) : List (List Token) → List Token → List Token →
    List (List Token × List Token)
  | [], seed, acc => if acc.isEmpty then [] else [(seed, acc)]
  | b :: rest, seed, acc =>
    if maxT < b.length then
      (if acc.isEmpty then [] else [(seed, acc)]) ++ ([], b) :: goChunks maxT ovl rest [] []
    else if acc.isEmpty then
      goChunks maxT ovl rest seed b
    else if seed.length + acc.length + b.length ≤ maxT then
      goChunks maxT ovl rest seed (acc ++ b)
    else
      (seed, acc) :: goChunks maxT ovl rest (takeLast ovl (seed ++ acc)) b

/-- A chunk: parent document id, ordinal position, text (overlap seed
followed by own content) and the length of its overlap region. -/
structure Chunk where
  docId : String
  ordinal : Nat
  text : List Token
  overlapLen : Nat
deriving Repr, DecidableEq

/-- Modelled from the spec: chunk a document under a validated policy,
assigning ordinals in production order. -/
def chunksOf (vp : ValidPolicy) (d : Doc) : List Chunk :=
  (goChunks vp.maxT vp.ovl d.blocks [] []).enum.map
    (fun p => ⟨d.id, p.1, p.2.1 ++ p.2.2, p.2.1.length⟩)

/-- Modelled from the spec: the Chunker entry point — validate the policy,
then chunk. -/
def chunkDocument (p : Policy) (d : Doc) : Except ChunkPolicyError (List Chunk) :=
  (validatePolicy p).map (fun vp => chunksOf vp d)

/-- Concatenating a document's chunk texts with the overlap regions removed. -/
def reassemble (cs : List Chunk) : List Token :=
  (cs.map (fun c => c.text.drop c.overlapLen)).flatten

/-! ## Hasher / dedup and the embedding run (spec 4.3, 4.4) -/

/-- Modelled from the spec: whitespace normalization of a chunk's token
sequence (tokens are whitespace-delimited, so normalization drops empty
tokens; case is preserved). -/
def normText (t : List Token) : List Token :=
  t.filter (fun s => ¬ s = "")

/-- A stable content hash value.  Modelled from the spec: the hash is "a pure
function of its normalized text" and equal hashes mean interchangeable
content, so the fingerprint is represented by the normalized text itself. -/
abbrev Hash := List Token

/-- Modelled from the spec: the Hasher — a stable hash over normalized chunk
text. -/
def chunkHash (t : List Token) : Hash :=
  normText t

/-- Modelled from the spec: the dedup partition (spec 4.3) — the chunk hashes
not yet embedded under the target model id, each listed once; exactly these
are handed to the Embedder. -/
def embedCalls (store : List (Hash × String)) (m : String)
    (texts : List (List Token)) : List Hash :=
  ((texts.map chunkHash).dedup).filter (fun h => decide ((h, m) ∉ store))

/-- Modelled from the spec: one embedding run (spec 4.3) — the Embedder is
invoked on the deduplicated new hashes and the store is extended with the
resulting `(hash, model id)` records. -/
def runEmbedding (store : List (Hash × String)) (m : String)
    (texts : List (List Token)) : List Hash × List (Hash × String) :=
  (embedCalls store m texts, store ++ (embedCalls store m texts).map (fun h => (h, m)))

/-! ## Embedder variants (spec 4.4) -/

/-- Modelled from the spec: embedding error classes (spec 7). -/
inductive EmbedError where
  | transient
  | fatal
deriving Repr, DecidableEq

/-- Modelled from the spec: the local deterministic embedding — a
statistical projection of a token sequence to a fixed-length vector. -/
def localVec (t : List Token) : List ℚ :=
  [(t.length : ℚ), ((t.map String.length).sum : ℚ)]

/-- Modelled from the spec: the closed set of Embedder variants, selected
once per run by configuration. -/
inductive Embedder where
  | localDet
  | remote (host token : String)
deriving Repr, DecidableEq

/-- Modelled from the spec: variant selection — the local deterministic
embedder is used when no remote model is configured (the configured model
identifier is the `local` default). -/
def selectEmbedder (c : Config) : Embedder :=
  if c.model = "local" then .localDet else .remote c.host c.token

/-- Modelled from the spec: run an embedder on ordered chunk texts.  The
local variant always succeeds in-process; the remote variant's network
behavior is an external oracle `responder`. -/
def embedWith (responder : List (List Token) → Except EmbedError (List (List ℚ))) :
    Embedder → List (List Token) → Except EmbedError (List (List ℚ))
  | .localDet, ts => .ok (ts.map localVec)
  | .remote _ _, ts => responder ts

/-! ## Retriever (spec 4.6) -/

/-- A stored chunk as visible to the Retriever: text, provenance, ranking
metadata and its embedding vector. -/
structure StoredChunk where
  docId : String
  docVersion : Nat
  text : List Token
  headingPath : List String
  tags : List String
  rulePriority : Int
  sourceWeight : Int
  vector : List ℚ
deriving Repr, DecidableEq

/-- A published snapshot: the embedding model id it was built with and its
chunks. -/
structure Snapshot where
  modelId : String
  chunks : List StoredChunk
deriving Repr, DecidableEq

/-- A retrieval query: free text plus the model id its embedding would use. -/
structure Query where
  text : List Token
  modelId : String
deriving Repr, DecidableEq

/-- Modelled from the spec: `RetrievalModelMismatchError` (spec 7) — the only
retrieval failure. -/
inductive RetrieveError where
  | retrievalModelMismatch
deriving Repr, DecidableEq

/-- Dot product of two vectors.  Modelled from the spec: cosine similarity of
unit-normalized stored vectors equals their dot product; vectors are stored
normalized, so similarity is the dot product. -/
def dotQ (a b : List ℚ) : ℚ :=
  (List.zipWith (fun x y => x * y) a b).sum

/-- Whether a chunk matches the optional `tags_any` filter (no filter matches
everything). -/
def tagMatch (tf : Option (List String)) (c : StoredChunk) : Bool :=
  match tf with
  | none => true
  | some ts => ts.any (fun t => c.tags.contains t)

/-- The newest declared version among a chunk list for a logical document id. -/
def maxVersionFor (chunks : List StoredChunk) (docId : String) : Nat :=
  ((chunks.filter (fun c => c.docId = docId)).map (fun c => c.docVersion)).foldr max 0

/-- Modelled from the spec: eligibility — when the same logical document id
has multiple versions, only the newest version's chunks are eligible. -/
def eligible (chunks : List StoredChunk) (c : StoredChunk) : Bool :=
  c.docVersion = maxVersionFor chunks c.docId

/-- The composite ranking key of spec 4.6, encoded so that the documented
descending lexicographic rank order is the ascending lexicographic order on
the key: negated (rule-priority weight, tag-filter match, source document
version, manifest source weight, similarity), then the stable input index
ascending. -/
def rankKey (qv : List ℚ) (tf : Option (List String)) (ic : Nat × StoredChunk) :
    ℤ ×ₗ (ℤ ×ₗ (ℤ ×ₗ (ℤ ×ₗ (ℚ ×ₗ ℕ)))) :=
  toLex (-ic.2.rulePriority,
    toLex ((if tagMatch tf ic.2 then -1 else 0 : ℤ),
      toLex (-(ic.2.docVersion : ℤ),
        toLex (-ic.2.sourceWeight,
          toLex (-(dotQ qv ic.2.vector), ic.1)))))

/-- The ranking preorder used to sort candidates. -/
def rankLE (qv : List ℚ) (tf : Option (List String)) (a b : Nat × StoredChunk) : Prop :=
  rankKey qv tf a ≤ rankKey qv tf b

instance (qv : List ℚ) (tf : Option (List String)) : DecidableRel (rankLE qv tf) :=
  fun a b => inferInstanceAs (Decidable (rankKey qv tf a ≤ rankKey qv tf b))

instance (qv : List ℚ) (tf : Option (List String)) : IsTotal (Nat × StoredChunk) (rankLE qv tf) :=
  ⟨fun a b => le_total (rankKey qv tf a) (rankKey qv tf b)⟩

instance (qv : List ℚ) (tf : Option (List String)) : IsTrans (Nat × StoredChunk) (rankLE qv tf) :=
  ⟨fun _ _ _ hab hbc => le_trans hab hbc⟩

/-- Modelled from the spec: `retrieve` (spec 4.6) — check the query's model
id against the snapshot's, embed the query, keep the eligible chunks with
their stable input positions, sort by the composite key and return at most
`k` results. -/
def retrieve (snap : Snapshot) (q : Query) (tf : Option (List String)) (k : Nat) :
    Except RetrieveError (List (Nat × StoredChunk)) :=
  if q.modelId ≠ snap.modelId then
    .error .retrievalModelMismatch
  else
    let qv := localVec q.text
    let indexed := snap.chunks.enum.filter (fun ic => eligible snap.chunks ic.2)
    .ok ((List.insertionSort (rankLE qv tf) indexed).take k)

/-- The serving wrapper: retrieval reads the published snapshot and never
writes it. -/
structure Server where
  snap : Snapshot
deriving Repr, DecidableEq

/-- Modelled from the spec: serve one query against the current snapshot;
the snapshot state is returned unchanged (retrieval is read-only). -/
def serveQuery (st : Server) (q : Query) (tf : Option (List String)) (k : Nat) :
    Except RetrieveError (List (Nat × StoredChunk)) × Server :=
  (retrieve st.snap q tf k, st)

/-! ## Ingestion run (spec 4.2, 7) -/

/-- An observable I/O action of a run (reading source documents, writing the
new snapshot). -/
inductive RunAction where
  | readDoc (id : String)
  | writeSnapshot
deriving Repr, DecidableEq

/-- The outcome of an ingestion run: result, published chunk set after the
run, and the trace of I/O actions performed. -/
structure IngestOut where
  result : Except ChunkPolicyError Unit
  published : List Chunk
  trace : List RunAction
deriving Repr

/-- Whether an `Except` is an error. -/
def isErr {ε α : Type} : Except ε α → Bool
  | .error _ => true
  | .ok _ => false

/-- Modelled from the spec: an ingestion run — the chunk policy is validated
first and an invalid policy rejects the run before any I/O, leaving the
published snapshot unchanged (spec 7); a valid policy chunks every document
and publishes the new chunk set. -/
def runIngest (p : Policy) (docs : List Doc) (published : List Chunk) : IngestOut :=
  match validatePolicy p with
  | .error e => ⟨.error e, published, []⟩
  | .ok vp =>
    ⟨.ok (), (docs.map (chunksOf vp)).flatten,
      (docs.map (fun d => RunAction.readDoc d.id)) ++ [RunAction.writeSnapshot]⟩

/-! ## Store state machine (spec 4.5) -/

/-- The Store's state.  Modelled from the spec: published snapshots live at
immutable locations, `cur` is the single current pointer, `nextLoc` allocates
fresh locations, and `staging` is an in-progress rebuild: its fresh location,
the complete target snapshot, and the chunks written so far. -/
structure StoreSt where
  snaps : List (Nat × Snapshot)
  cur : Nat
  nextLoc : Nat
  staging : Option (Nat × Snapshot × List StoredChunk)
deriving Repr, DecidableEq

/-- The initial store: one published empty snapshot, no rebuild in flight. -/
def initStore : StoreSt :=
  ⟨[(0, ⟨"local", []⟩)], 0, 1, none⟩

/-- Find the snapshot published at a location. -/
def findSnap (l : Nat) : List (Nat × Snapshot) → Option Snapshot
  | [] => none
  | x :: xs => if l = x.1 then some x.2 else findSnap l xs

/-- What a reader observes: the snapshot at the current pointer.  Staging is
invisible to readers. -/
def readCurrent (s : StoreSt) : Option Snapshot :=
  findSnap s.cur s.snaps

/-- Modelled from the spec: the Store's atomic-publish protocol (spec 4.5 and
Design Notes) — a rebuild writes the complete new snapshot chunk by chunk
at a fresh location and only `commit`, which requires the write to be
complete, publishes it and swaps the current pointer. -/
inductive StoreStep : StoreSt → StoreSt → Prop where
  | beginRebuild (s : StoreSt) (target : Snapshot) (h : s.staging = none) :
      StoreStep s { s with staging := some (s.nextLoc, target, []), nextLoc := s.nextLoc + 1 }
  | writeChunk (s : StoreSt) (l : Nat) (t : Snapshot) (w : List StoredChunk) (c : StoredChunk)
      (h : s.staging = some (l, t, w)) (hc : t.chunks.drop w.length = c :: (t.chunks.drop (w.length + 1))) :
      StoreStep s { s with staging := some (l, t, w ++ [c]) }
  | commit (s : StoreSt) (l : Nat) (t : Snapshot) (w : List StoredChunk)
      (h : s.staging = some (l, t, w)) (hw : w = t.chunks) :
      StoreStep s { s with snaps := (l, t) :: s.snaps, cur := l, staging := none }

/-- States reachable from the initial store. -/
inductive StoreReachable : StoreSt → Prop where
  | init : StoreReachable initStore
  | step {s s' : StoreSt} : StoreReachable s → StoreStep s s' → StoreReachable s'

/-! ## Environment noninterference (spec Design Notes, `src/config.ts`) -/

/-- An ingestion-side pipeline operation under a process environment history:
`envInit` is the environment when `config.ts` was loaded and the components
were constructed; `envNow` is the (possibly mutated) environment at pipeline
time, which no component reads after construction. -/
def ingestUnderEnv (cwd pwd : String) (envInit _envNow : Env)
    (store : List (Hash × String)) (texts : List (List Token)) :
    List Hash × List (Hash × String) :=
  runEmbedding store (initConfig cwd pwd envInit).model texts

/-- A query-side operation under a process environment history: the query is
embedded under the model id fixed at construction; the mutated environment
`envNow` is never consulted. -/
def queryUnderEnv (cwd pwd : String) (envInit _envNow : Env) (st : Server)
    (qt : List Token) (tf : Option (List String)) (k : Nat) :
    Except RetrieveError (List (Nat × StoredChunk)) × Server :=
  serveQuery st ⟨qt, (initConfig cwd pwd envInit).model⟩ tf k

/-! ## Auxiliary definitions used by the theorems -/

/-- The empty environment: every variable is unset. -/
def envNone : Env := fun _ => none

/-- An environment binding only `BUILD_DIR` to `..`. -/
def envDotDot : Env := fun k => if k = "BUILD_DIR" then some ".." else none

/-- A remote-embedding oracle that always fails (used to show the local
variant succeeds regardless of the remote collaborator). -/
def respFail : List (List Token) → Except EmbedError (List (List ℚ)) :=
  fun _ => .error .fatal

/-- The published locations of a store state. -/
def storeLocs (s : StoreSt) : List Nat :=
  s.snaps.map Prod.fst

/-- The Store invariant: published locations are distinct and below the
allocator, the current pointer names a published location, and an
in-progress rebuild sits at a fresh location. -/
def StoreInv (s : StoreSt) : Prop :=
  (storeLocs s).Nodup ∧
  (∀ l ∈ storeLocs s, l < s.nextLoc) ∧
  s.cur ∈ storeLocs s ∧
  (∀ l t w, s.staging = some (l, t, w) → l ∉ storeLocs s ∧ l < s.nextLoc)

/-! ## Theorems -/

/-- C7: when no remote embedding model is configured (`EMBEDDING_MODEL` unset
or empty), the configured model identifier is `local`, the local in-process
deterministic embedder variant is selected, and it always succeeds,
regardless of the remote collaborator. -/
theorem local_model_default (cwd pwd : String) (env : Env)
    (h : env "EMBEDDING_MODEL" = none ∨ env "EMBEDDING_MODEL" = some "") :
    (initConfig cwd pwd env).model = "local" ∧
    selectEmbedder (initConfig cwd pwd env) = Embedder.localDet ∧
    ∀ r ts, embedWith r (selectEmbedder (initConfig cwd pwd env)) ts = .ok (ts.map localVec) := by
  have hm : (initConfig cwd pwd env).model = "local" := by
    rcases h with h | h <;> simp [initConfig, jsOr, h]
  have hs : selectEmbedder (initConfig cwd pwd env) = Embedder.localDet := by
    simp [selectEmbedder, hm]
  exact ⟨hm, hs, fun r ts => by rw [hs]; rfl⟩

theorem local_model_default_witness :
    (initConfig "/w" "/p" envNone).model = "local" ∧
    selectEmbedder (initConfig "/w" "/p" envNone) = Embedder.localDet ∧
    embedWith respFail (selectEmbedder (initConfig "/w" "/p" envNone)) [["a"]] =
      .ok ([["a"]].map localVec) := by
  obtain ⟨h1, h2, h3⟩ := local_model_default "/w" "/p" envNone (Or.inl rfl)
  exact ⟨h1, h2, h3 respFail [["a"]]⟩

/-- C8: configuration is fixed at construction; mutating the process
environment after initialization does not change the result of any pipeline
operation, because every component reads only the explicit `Config` value.
Both an ingestion-side and a query-side operation are shown invariant in the
environment seen at pipeline time. -/
theorem env_change_noninterference (cwd pwd : String) (e0 e1 e2 : Env)
    (store : List (Hash × String)) (texts : List (List Token)) (st : Server)
    (qt : List Token) (tf : Option (List String)) (k : Nat) :
    ingestUnderEnv cwd pwd e0 e1 store texts = ingestUnderEnv cwd pwd e0 e2 store texts ∧
    queryUnderEnv cwd pwd e0 e1 st qt tf k = queryUnderEnv cwd pwd e0 e2 st qt tf k :=
  ⟨rfl, rfl⟩

/-- C10: configuration initialization is total — every exported constant is
defined for every environment (the explicit record equation below has no
failure case) — and a missing or empty `OPENAI_KEY` yields the empty token
while `OPENAI_HOST` still defaults to the OpenAI endpoint. -/
theorem config_total_missing_credential (cwd pwd : String) (env : Env)
    (hk : env "OPENAI_KEY" = none ∨ env "OPENAI_KEY" = some "")
    (hh : env "OPENAI_HOST" = none ∨ env "OPENAI_HOST" = some "") :
    initConfig cwd pwd env =
      ⟨cwd, pwd, jsOr (env "EMBEDDING_MODEL") "local",
        pathJoin2 cwd (jsOr (env "BUILD_DIR") ".build"),
        jsOr (env "GITHUB_REPO") "https://github.com/cblanquera/mcp",
        jsOr (env "OPENAI_HOST") "https://api.openai.com/v1",
        jsOr (env "OPENAI_KEY") ""⟩ ∧
    (initConfig cwd pwd env).token = "" ∧
    (initConfig cwd pwd env).host = "https://api.openai.com/v1" := by
  refine ⟨rfl, ?_, ?_⟩
  · rcases hk with h | h <;> simp [initConfig, jsOr, h]
  · rcases hh with h | h <;> simp [initConfig, jsOr, h]

theorem config_total_missing_credential_witness :
    (initConfig "/w" "/p" envNone).token = "" ∧
    (initConfig "/w" "/p" envNone).host = "https://api.openai.com/v1" :=
  (config_total_missing_credential "/w" "/p" envNone (Or.inl rfl) (Or.inl rfl)).2

/-- C5: a chunk policy with a non-positive bound or with overlap not strictly
below the max size makes the run fail with a `ChunkPolicyError` before any
I/O action, leaving the published snapshot unchanged; a policy with
`0 < overlap_tokens < max_chunk_tokens` never raises `ChunkPolicyError`. -/
theorem policy_rejected_before_io (p : Policy) (docs : List Doc) (pub : List Chunk) :
    ((p.maxChunkTokens ≤ 0 ∨ p.overlapTokens ≤ 0 ∨ p.overlapTokens ≥ p.maxChunkTokens) →
      isErr (runIngest p docs pub).result = true ∧
      (runIngest p docs pub).published = pub ∧
      (runIngest p docs pub).trace = []) ∧
    ((0 < p.overlapTokens ∧ p.overlapTokens < p.maxChunkTokens) →
      (runIngest p docs pub).result = .ok ()) := by
  unfold runIngest validatePolicy
  split_ifs with h1 h2
  · exact ⟨fun _ => ⟨rfl, rfl, rfl⟩, fun h => by omega⟩
  · exact ⟨fun h => by omega, fun _ => rfl⟩
  · exact ⟨fun _ => ⟨rfl, rfl, rfl⟩, fun h => by omega⟩

theorem policy_rejected_before_io_witness :
    (isErr (runIngest ⟨3, 3⟩ [] []).result = true ∧
      (runIngest ⟨3, 3⟩ [] []).published = [] ∧
      (runIngest ⟨3, 3⟩ [] []).trace = []) ∧
    (runIngest ⟨300, 50⟩ [] []).result = .ok () :=
  ⟨(policy_rejected_before_io ⟨3, 3⟩ [] []).1 (by decide),
   (policy_rejected_before_io ⟨300, 50⟩ [] []).2 (by decide)⟩

/-- C6: a retrieval query whose embedding model id differs from the current
snapshot's model id fails with `RetrievalModelMismatchError`; the snapshot
state is returned untouched, and any later query with the matching model id
against that state still succeeds (the error is confined to the one query). -/
theorem model_mismatch_confined (st : Server) (q : Query) (tf : Option (List String)) (k : Nat)
    (h : q.modelId ≠ st.snap.modelId) :
    (serveQuery st q tf k).1 = .error .retrievalModelMismatch ∧
    (serveQuery st q tf k).2 = st ∧
    (∀ q2 tf2 k2, q2.modelId = st.snap.modelId →
      isErr (serveQuery (serveQuery st q tf k).2 q2 tf2 k2).1 = false) := by
  refine ⟨?_, rfl, ?_⟩
  · simp [serveQuery, retrieve, h]
  · intro q2 tf2 k2 h2
    simp [serveQuery, retrieve, h2, isErr]

theorem model_mismatch_confined_witness :
    (serveQuery ⟨⟨"B", []⟩⟩ ⟨["q"], "A"⟩ none 6).1 = .error .retrievalModelMismatch ∧
    (serveQuery ⟨⟨"B", []⟩⟩ ⟨["q"], "A"⟩ none 6).2 = ⟨⟨"B", []⟩⟩ ∧
    isErr (serveQuery (serveQuery ⟨⟨"B", []⟩⟩ ⟨["q"], "A"⟩ none 6).2 ⟨["q"], "B"⟩ none 6).1 = false := by
  obtain ⟨h1, h2, h3⟩ :=
    model_mismatch_confined ⟨⟨"B", []⟩⟩ ⟨["q"], "A"⟩ none 6 (by decide)
  exact ⟨h1, h2, h3 ⟨["q"], "B"⟩ none 6 rfl⟩

/-- C3: the content hash is a pure function of normalized chunk text, an
embedding run invokes the Embedder at most once per `(hash, model id)` pair
(never for a pair already in the store, and with no duplicates in one run),
and re-running the same input against the resulting store triggers zero
embedding calls. -/
theorem dedup_idempotent_embedding (store : List (Hash × String)) (m : String)
    (texts : List (List Token)) :
    (runEmbedding store m texts).1.Nodup ∧
    (∀ h1, (h1, m) ∈ store → h1 ∉ (runEmbedding store m texts).1) ∧
    (runEmbedding (runEmbedding store m texts).2 m texts).1 = [] ∧
    (∀ t1 t2 : List Token, normText t1 = normText t2 → chunkHash t1 = chunkHash t2) := by
  refine ⟨?_, ?_, ?_, ?_⟩
  · exact List.Nodup.filter _ (List.nodup_dedup _)
  · intro h1 hs hmem
    have hmem' : h1 ∈ embedCalls store m texts := hmem
    unfold embedCalls at hmem'
    rw [List.mem_filter] at hmem'
    exact (of_decide_eq_true hmem'.2) hs
  · show embedCalls (runEmbedding store m texts).2 m texts = []
    unfold embedCalls
    rw [List.filter_eq_nil_iff]
    intro h hmem hdec
    have hnotin := of_decide_eq_true hdec
    by_cases hin : (h, m) ∈ store
    · exact hnotin (List.mem_append.mpr (Or.inl hin))
    · refine hnotin (List.mem_append.mpr (Or.inr ?_))
      refine List.mem_map.mpr ⟨h, ?_, rfl⟩
      unfold embedCalls
      exact List.mem_filter.mpr ⟨hmem, by simpa using hin⟩
  · intro t1 t2 h
    simpa [chunkHash] using h

theorem dedup_idempotent_embedding_witness :
    (runEmbedding [] "M" [["a"], ["a"]]).1.Nodup ∧
    (["a"] : Hash) ∉ (runEmbedding [(["a"], "M")] "M" [["a"]]).1 ∧
    (runEmbedding (runEmbedding [] "M" [["a"], ["a"]]).2 "M" [["a"], ["a"]]).1 = [] ∧
    chunkHash ["a", ""] = chunkHash ["a"] :=
  ⟨(dedup_idempotent_embedding [] "M" [["a"], ["a"]]).1,
   (dedup_idempotent_embedding [(["a"], "M")] "M" [["a"]]).2.1 ["a"] (by simp),
   (dedup_idempotent_embedding [] "M" [["a"], ["a"]]).2.2.1,
   (dedup_idempotent_embedding [] "M" [["a"]]).2.2.2 ["a", ""] ["a"] (by decide)⟩

/-- The chunker's own-content concatenation invariant: over any greedy run,
the chunks' own contents (texts minus overlap seeds) concatenate to the
pending accumulator followed by the remaining blocks. -/
theorem goChunks_owns (maxT ovl : Nat) (blocks : List (List Token)) :
    ∀ seed acc, ((goChunks maxT ovl blocks seed acc).map Prod.snd).flatten =
      acc ++ blocks.flatten := by
  induction blocks with
  | nil =>
    intro seed acc
    by_cases h : acc.isEmpty
    · simp [goChunks, h, List.isEmpty_iff.mp h]
    · simp [goChunks, h]
  | cons b rest ih =>
    intro seed acc
    by_cases h1 : maxT < b.length
    · by_cases h2 : acc.isEmpty
      · simp [goChunks, h1, h2, ih, List.isEmpty_iff.mp h2]
      · simp [goChunks, h1, h2, ih]
    · by_cases h2 : acc.isEmpty
      · simp [goChunks, h1, h2, ih, List.isEmpty_iff.mp h2]
      · by_cases h3 : seed.length + acc.length + b.length ≤ maxT
        · simp [goChunks, h1, h2, h3, ih]
        · simp [goChunks, h1, h2, h3, ih]

/-- C2: for every document processed by the Chunker, the chunk ordinals are
contiguous and monotonic (they are exactly `0, 1, ...`), and concatenating
the chunks' texts in ordinal order with the overlap regions removed
reconstructs the document's normalized body exactly. -/
theorem chunk_ordinals_roundtrip (p : Policy) (d : Doc) (cs : List Chunk)
    (h : chunkDocument p d = .ok cs) :
    cs.map (fun c => c.ordinal) = List.range cs.length ∧
    reassemble cs = normalizeBody d := by
  unfold chunkDocument at h
  cases hv : validatePolicy p with
  | error e => rw [hv] at h; simp [Except.map] at h
  | ok vp =>
    rw [hv] at h
    simp only [Except.map, Except.ok.injEq] at h
    subst h
    constructor
    · unfold chunksOf
      rw [List.map_map]
      have : ((fun c : Chunk => c.ordinal) ∘
          (fun p : Nat × (List Token × List Token) =>
            (⟨d.id, p.1, p.2.1 ++ p.2.2, p.2.1.length⟩ : Chunk))) = Prod.fst := rfl
      rw [this, List.enum_map_fst, List.length_map, List.enum_length]
    · unfold chunksOf reassemble
      rw [List.map_map]
      have h1 : ((fun c : Chunk => c.text.drop c.overlapLen) ∘
          (fun p : Nat × (List Token × List Token) =>
            (⟨d.id, p.1, p.2.1 ++ p.2.2, p.2.1.length⟩ : Chunk))) =
          (fun p : Nat × (List Token × List Token) => p.2.2) := by
        funext p
        exact List.drop_left p.2.1 p.2.2
      rw [h1]
      have h2 : (fun p : Nat × (List Token × List Token) => p.2.2) =
          (Prod.snd ∘ Prod.snd) := rfl
      rw [h2, ← List.map_map, List.enum_map_snd]
      rw [goChunks_owns]
      simp [normalizeBody]

theorem chunk_ordinals_roundtrip_witness :
    chunkDocument ⟨5, 2⟩ ⟨"d", [["a", "b", "c"], ["d"]]⟩ =
      .ok [⟨"d", 0, ["a", "b", "c", "d"], 0⟩] ∧
    ([⟨"d", 0, ["a", "b", "c", "d"], 0⟩] : List Chunk).map (fun c => c.ordinal) =
      List.range ([⟨"d", 0, ["a", "b", "c", "d"], 0⟩] : List Chunk).length ∧
    reassemble [⟨"d", 0, ["a", "b", "c", "d"], 0⟩] =
      normalizeBody ⟨"d", [["a", "b", "c"], ["d"]]⟩ :=
  ⟨rfl,
   (chunk_ordinals_roundtrip ⟨5, 2⟩ ⟨"d", [["a", "b", "c"], ["d"]]⟩
      [⟨"d", 0, ["a", "b", "c", "d"], 0⟩] rfl).1,
   (chunk_ordinals_roundtrip ⟨5, 2⟩ ⟨"d", [["a", "b", "c"], ["d"]]⟩
      [⟨"d", 0, ["a", "b", "c", "d"], 0⟩] rfl).2⟩

/-- A location present among the published keys is readable. -/
theorem findSnap_of_mem_fst {l : Nat} {xs : List (Nat × Snapshot)}
    (h : l ∈ xs.map Prod.fst) : ∃ sn, findSnap l xs = some sn := by
  induction xs with
  | nil => simp at h
  | cons x xs ih =>
    by_cases he : l = x.1
    · exact ⟨x.2, by simp [findSnap, he]⟩
    · simp only [List.map_cons, List.mem_cons] at h
      rcases h with h1 | h1
      · exact absurd h1 he
      · rcases ih h1 with ⟨sn, hsn⟩
        exact ⟨sn, by simp [findSnap, he, hsn]⟩

/-- A location absent from the published keys is not readable. -/
theorem findSnap_of_not_mem_fst {l : Nat} {xs : List (Nat × Snapshot)}
    (h : l ∉ xs.map Prod.fst) : findSnap l xs = none := by
  induction xs with
  | nil => rfl
  | cons x xs ih =>
    simp only [List.map_cons, List.mem_cons] at h
    push_neg at h
    simp [findSnap, h.1, ih h.2]

/-- The Store invariant holds initially. -/
theorem storeInv_init : StoreInv initStore := by
  refine ⟨by simp [storeLocs, initStore], ?_, ?_, ?_⟩
  · intro l hl
    simp [storeLocs, initStore] at hl
    simp [hl, initStore]
  · simp [storeLocs, initStore]
  · intro l t w hlt
    simp [initStore] at hlt

/-- The Store invariant is preserved by every step of the publish protocol. -/
theorem storeInv_step {s s' : StoreSt} (hi : StoreInv s) (hs : StoreStep s s') :
    StoreInv s' := by
  obtain ⟨hnd, hlt, hcur, hstg⟩ := hi
  cases hs with
  | beginRebuild target h =>
    refine ⟨hnd, ?_, hcur, ?_⟩
    · intro l hl
      exact Nat.lt_succ_of_lt (hlt l hl)
    · intro l t w hlt2
      injection hlt2 with htup
      have h1 : s.nextLoc = l := congrArg Prod.fst htup
      subst h1
      exact ⟨fun hmem => absurd (hlt _ hmem) (lt_irrefl _), Nat.lt_succ_self _⟩
  | writeChunk l t w c h hc =>
    refine ⟨hnd, hlt, hcur, ?_⟩
    intro l2 t2 w2 hlt2
    injection hlt2 with htup
    have h1 : l = l2 := congrArg Prod.fst htup
    subst h1
    exact hstg l t w h
  | commit l t w h hw =>
    have hfresh := hstg l t w h
    refine ⟨?_, ?_, ?_, ?_⟩
    · simp only [storeLocs, List.map_cons]
      exact List.nodup_cons.mpr ⟨hfresh.1, hnd⟩
    · intro l2 hl2
      simp only [storeLocs, List.map_cons, List.mem_cons] at hl2
      rcases hl2 with h1 | h1
      · exact h1 ▸ hfresh.2
      · exact hlt l2 h1
    · simp [storeLocs]
    · intro l2 t2 w2 hlt2
      simp at hlt2

/-- The Store invariant holds at every reachable state. -/
theorem storeInv_reachable {s : StoreSt} (h : StoreReachable s) : StoreInv s := by
  induction h with
  | init => exact storeInv_init
  | step _ hstp ih => exact storeInv_step ih hstp

/-- C4: at every reachable store state the published locations are distinct
and the single current pointer names a complete published snapshot, so a
reader always observes a fully published snapshot; an in-progress rebuild's
fresh location is invisible to readers, and no step of the protocol ever
mutates a previously published snapshot in place (every published binding is
preserved by every step). -/
theorem snapshot_atomic_publish (s : StoreSt) (hr : StoreReachable s) :
    (storeLocs s).Nodup ∧
    (∃ snap, readCurrent s = some snap) ∧
    (∀ l t w, s.staging = some (l, t, w) → findSnap l s.snaps = none) ∧
    (∀ s', StoreStep s s' → ∀ l snap, (l, snap) ∈ s.snaps → (l, snap) ∈ s'.snaps) := by
  obtain ⟨hnd, hlt, hcur, hstg⟩ := storeInv_reachable hr
  refine ⟨hnd, findSnap_of_mem_fst hcur, ?_, ?_⟩
  · intro l t w h
    exact findSnap_of_not_mem_fst (hstg l t w h).1
  · intro s' hstep l snap hmem
    cases hstep with
    | beginRebuild target h => exact hmem
    | writeChunk l2 t w c h hc => exact hmem
    | commit l2 t w h hw => exact List.mem_cons_of_mem _ hmem

theorem snapshot_atomic_publish_witness :
    (storeLocs initStore).Nodup ∧ readCurrent initStore = some ⟨"local", []⟩ :=
  ⟨(snapshot_atomic_publish initStore StoreReachable.init).1, rfl⟩

/-- C1: for every query, optional tag filter and requested `k`, a successful
`retrieve` returns at most `k` results, strictly ordered by the documented
composite key — rule-priority weight, tag-filter match, source document
version, manifest source weight, raw similarity, each tie broken by the next
key and the final tie broken by stable input order (all encoded in
`rankKey`, on which the output is strictly increasing). -/
theorem retrieve_ranked (snap : Snapshot) (q : Query) (tf : Option (List String)) (k : Nat)
    (res : List (Nat × StoredChunk)) (h : retrieve snap q tf k = .ok res) :
    res.length ≤ k ∧
    res.Pairwise (fun a b =>
      rankKey (localVec q.text) tf a < rankKey (localVec q.text) tf b) := by
  unfold retrieve at h
  by_cases hm : q.modelId ≠ snap.modelId
  · simp [hm] at h
  · rw [if_neg hm] at h
    injection h with h
    have hres : res = (List.insertionSort (rankLE (localVec q.text) tf)
        (snap.chunks.enum.filter (fun ic => eligible snap.chunks ic.2))).take k := h.symm
    subst hres
    constructor
    · rw [List.length_take]
      exact min_le_left _ _
    · have hs := List.sorted_insertionSort (rankLE (localVec q.text) tf)
        (snap.chunks.enum.filter (fun ic => eligible snap.chunks ic.2))
      have ple : List.Pairwise (rankLE (localVec q.text) tf)
          ((List.insertionSort (rankLE (localVec q.text) tf)
            (snap.chunks.enum.filter (fun ic => eligible snap.chunks ic.2))).take k) :=
        List.Pairwise.sublist (List.take_sublist _ _) hs
      have hnd0 : (snap.chunks.enum.map Prod.fst).Nodup := by
        rw [List.enum_map_fst]; exact List.nodup_range _
      have hnd1 : ((snap.chunks.enum.filter
          (fun ic => eligible snap.chunks ic.2)).map Prod.fst).Nodup :=
        List.Nodup.sublist (List.Sublist.map _ (List.filter_sublist _)) hnd0
      have hperm := List.perm_insertionSort (rankLE (localVec q.text) tf)
        (snap.chunks.enum.filter (fun ic => eligible snap.chunks ic.2))
      have hnd2 : ((List.insertionSort (rankLE (localVec q.text) tf)
          (snap.chunks.enum.filter (fun ic => eligible snap.chunks ic.2))).map Prod.fst).Nodup :=
        List.Perm.nodup (List.Perm.symm (List.Perm.map Prod.fst hperm)) hnd1
      have hnd3 : (((List.insertionSort (rankLE (localVec q.text) tf)
          (snap.chunks.enum.filter (fun ic => eligible snap.chunks ic.2))).take k).map
            Prod.fst).Nodup :=
        List.Nodup.sublist (List.Sublist.map _ (List.take_sublist _ _)) hnd2
      have pne := List.pairwise_map.mp hnd3
      refine (ple.and pne).imp ?_
      intro a b hab
      refine lt_of_le_of_ne hab.1 ?_
      intro heq
      exact hab.2 (congrArg
        (fun x => (ofLex (ofLex (ofLex (ofLex (ofLex x).2).2).2).2).2) heq)

theorem retrieve_ranked_witness :
    retrieve ⟨"local", [⟨"d1", 1, ["x"], [], ["t"], 2, 0, [1]⟩]⟩ ⟨["q"], "local"⟩ none 2 =
      .ok [(0, ⟨"d1", 1, ["x"], [], ["t"], 2, 0, [1]⟩)] ∧
    ([(0, (⟨"d1", 1, ["x"], [], ["t"], 2, 0, [1]⟩ : StoredChunk))]).length ≤ 2 ∧
    ([(0, (⟨"d1", 1, ["x"], [], ["t"], 2, 0, [1]⟩ : StoredChunk))]).Pairwise (fun a b =>
      rankKey (localVec (["q"] : List Token)) none a <
        rankKey (localVec (["q"] : List Token)) none b) := by
  have h : retrieve ⟨"local", [⟨"d1", 1, ["x"], [], ["t"], 2, 0, [1]⟩]⟩ ⟨["q"], "local"⟩ none 2 =
      .ok [(0, ⟨"d1", 1, ["x"], [], ["t"], 2, 0, [1]⟩)] := by rfl
  obtain ⟨h1, h2⟩ := retrieve_ranked ⟨"local", [⟨"d1", 1, ["x"], [], ["t"], 2, 0, [1]⟩]⟩
    ⟨["q"], "local"⟩ none 2 [(0, ⟨"d1", 1, ["x"], [], ["t"], 2, 0, [1]⟩)] h
  exact ⟨h, h1, h2⟩

/-- Splitting distributes over a separator character. -/
theorem splitSlashAux_append (xs : List Char) (ys : List Char) :
    ∀ cur, splitSlashAux cur (xs ++ '/' :: ys) =
      splitSlashAux cur xs ++ splitSlashAux [] ys := by
  induction xs with
  | nil => intro cur; simp [splitSlashAux]
  | cons c xs ih =>
    intro cur
    by_cases h : c = '/' <;> simp [splitSlashAux, h, ih]

/-- Splitting distributes over string concatenation with a `/` in between. -/
theorem splitSlash_append (a b : String) :
    splitSlash (a ++ "/" ++ b) = splitSlash a ++ splitSlash b := by
  unfold splitSlash
  have hd : (a ++ "/" ++ b).data = a.data ++ '/' :: b.data := by
    simp [String.data_append]
  rw [hd, splitSlashAux_append]

/-- A slash-free character list yields a single segment. -/
theorem splitSlashAux_no_slash (ds : List Char) (h : ('/' : Char) ∉ ds) :
    ∀ cur, splitSlashAux cur ds = [String.mk (cur.reverse ++ ds)] := by
  induction ds with
  | nil => intro cur; simp [splitSlashAux]
  | cons c ds ih =>
    intro cur
    simp only [List.mem_cons] at h
    push_neg at h
    have hc : ¬ c = '/' := fun hcc => h.1 hcc.symm
    rw [splitSlashAux]
    simp only [if_neg hc]
    rw [ih h.2]
    simp

/-- A slash-free string is its own single segment. -/
theorem splitSlash_single (s : String) (h : ('/' : Char) ∉ s.data) :
    splitSlash s = [s] := by
  unfold splitSlash
  rw [splitSlashAux_no_slash s.data h]
  simp

/-- Splitting inverts joining for slash-free segments. -/
theorem splitSlash_joinSegs (l : List String) (hne : l ≠ [])
    (h : ∀ s ∈ l, ('/' : Char) ∉ s.data) :
    splitSlash (joinSegs l) = l := by
  induction l with
  | nil => exact absurd rfl hne
  | cons s t ih =>
    cases t with
    | nil =>
      rw [joinSegs]
      exact splitSlash_single s (h s (List.mem_cons_self s []))
    | cons u v =>
      rw [joinSegs, splitSlash_append]
      rw [splitSlash_single s (h s (List.mem_cons_self _ _))]
      rw [ih (by simp) (fun x hx => h x (List.mem_cons_of_mem _ hx))]
      simp

/-- On segments free of `.` and `..`, collapsing only removes the empties. -/
theorem collapse_nodots (l : List String) (h : ∀ s ∈ l, s ≠ "." ∧ s ≠ "..") :
    ∀ acc, collapseSegs acc l = acc.reverse ++ l.filter (fun s => !(s == "")) := by
  induction l with
  | nil => intro acc; simp [collapseSegs]
  | cons s rest ih =>
    intro acc
    have hs := h s (List.mem_cons_self _ _)
    have hrest := fun x hx => h x (List.mem_cons_of_mem _ hx)
    by_cases he : s = ""
    · subst he
      rw [collapseSegs]
      simp only [if_pos (Or.inl rfl)]
      rw [ih hrest]
      simp
    · rw [collapseSegs]
      have hcond : ¬ (s = "" ∨ s = ".") := by
        push_neg
        exact ⟨he, hs.1⟩
      rw [if_neg hcond, if_neg hs.2]
      rw [ih hrest]
      simp [he]

/-- Joining distributes over appending two non-empty segment lists. -/
theorem joinSegs_append (xs ys : List String) (hx : xs ≠ []) (hy : ys ≠ []) :
    joinSegs (xs ++ ys) = joinSegs xs ++ "/" ++ joinSegs ys := by
  induction xs with
  | nil => exact absurd rfl hx
  | cons s t ih =>
    cases t with
    | nil =>
      cases ys with
      | nil => exact absurd rfl hy
      | cons u v => simp [joinSegs]
    | cons u v =>
      have h1 : ((s :: u :: v) ++ ys) = s :: u :: (v ++ ys) := by simp
      rw [h1]
      rw [show joinSegs (s :: u :: (v ++ ys)) = s ++ "/" ++ joinSegs (u :: (v ++ ys)) from rfl]
      rw [show joinSegs (s :: u :: v) = s ++ "/" ++ joinSegs (u :: v) from rfl]
      have h2 : u :: (v ++ ys) = (u :: v) ++ ys := by simp
      rw [h2, ih (by simp)]
      simp [String.append_assoc]

/-- A string starting with a slash is non-empty. -/
theorem slash_append_ne_empty (x : String) : ("/" ++ x : String) ≠ "" := by
  intro h
  have hd := congrArg String.data h
  simp [String.data_append] at hd

/-- The build-directory setting is never the empty string. -/
theorem jsOr_build_ne (v : Option String) : jsOr v ".build" ≠ "" := by
  cases v with
  | none => simp [jsOr]
  | some s =>
    simp only [jsOr]
    split
    · simp
    · assumption

/-- Evaluation of `path.join(cwd, bd)` for a normalized absolute `cwd` and a
`bd` free of `.` and `..` segments: the non-empty segments of `bd` are
appended to `cwd`'s. -/
theorem pathJoin2_eval (csegs : List String) (bd : String)
    (hne : csegs ≠ [])
    (hgood : ∀ s ∈ csegs, s ≠ "" ∧ s ≠ "." ∧ s ≠ ".." ∧ ('/' : Char) ∉ s.data)
    (hbdne : bd ≠ "")
    (hbd : ∀ s ∈ splitSlash bd, s ≠ "." ∧ s ≠ "..") :
    pathJoin2 ("/" ++ joinSegs csegs) bd =
      "/" ++ joinSegs (csegs ++ (splitSlash bd).filter (fun s => !(s == ""))) := by
  have hcw : ("/" ++ joinSegs csegs : String) ≠ "" := slash_append_ne_empty _
  have hj : ("/" ++ joinSegs csegs ++ "/" ++ bd : String) ≠ "" := by
    intro h
    have hd := congrArg String.data h
    simp [String.data_append] at hd
  simp only [pathJoin2, if_neg hcw, if_neg hbdne, if_neg hj]
  unfold normalizeAbs
  have hsplit : splitSlash ("/" ++ joinSegs csegs ++ "/" ++ bd) =
      ("" :: csegs) ++ splitSlash bd := by
    rw [splitSlash_append]
    have ha : ("/" ++ joinSegs csegs : String) = "" ++ "/" ++ joinSegs csegs := rfl
    rw [ha, splitSlash_append]
    rw [splitSlash_joinSegs csegs hne (fun s hs => (hgood s hs).2.2.2)]
    rfl
  rw [hsplit]
  have hall : ∀ s ∈ ("" :: csegs) ++ splitSlash bd, s ≠ "." ∧ s ≠ ".." := by
    intro s hs
    rcases List.mem_append.mp hs with h1 | h1
    · rcases List.mem_cons.mp h1 with h2 | h2
      · subst h2; exact ⟨by decide, by decide⟩
      · exact ⟨(hgood s h2).2.1, (hgood s h2).2.2.1⟩
    · exact hbd s h1
  rw [collapse_nodots _ hall []]
  have hfil : (("" :: csegs) ++ splitSlash bd).filter (fun s => !(s == "")) =
      csegs ++ (splitSlash bd).filter (fun s => !(s == "")) := by
    rw [List.filter_append]
    congr 1
    rw [List.filter_cons]
    simp only [beq_self_eq_true, Bool.not_true, reduceIte]
    exact List.filter_eq_self.mpr (fun s hs => by simp [(hgood s hs).1])
  rw [hfil]
  simp

/-- C9 counterexample: with `BUILD_DIR` set to `..`, the exported build path
escapes the current working directory — `path.join` normalizes the `..`
away, so the artifact directory is not always rooted under `cwd`. -/
theorem build_escape_counterexample :
    (initConfig "/a/b" "/p" envDotDot).build = "/a" ∧
    ¬ rootedUnder "/a/b" ((initConfig "/a/b" "/p" envDotDot).build) := by
  constructor
  · rfl
  · intro h
    rcases h with h | h
    · exact absurd h (by decide)
    · exact absurd h (by decide)

/-- C9 (amended): the exported build path equals
`path.join(cwd, BUILD_DIR || '.build')`; for a normalized absolute `cwd`
it is rooted under `cwd` whenever the configured directory contains no `..`
or `.` segments (in particular even when it is an absolute path), and it
equals `cwd ++ "/.build"` when `BUILD_DIR` is unset or empty. -/
theorem build_rooted_amended (cwd pwd : String) (csegs : List String) (env : Env)
    (hcwd : cwd = "/" ++ joinSegs csegs) (hne : csegs ≠ [])
    (hgood : ∀ s ∈ csegs, s ≠ "" ∧ s ≠ "." ∧ s ≠ ".." ∧ ('/' : Char) ∉ s.data)
    (hbd : ∀ s ∈ splitSlash (jsOr (env "BUILD_DIR") ".build"), s ≠ "." ∧ s ≠ "..") :
    (initConfig cwd pwd env).build = pathJoin2 cwd (jsOr (env "BUILD_DIR") ".build") ∧
    rootedUnder cwd ((initConfig cwd pwd env).build) ∧
    ((env "BUILD_DIR" = none ∨ env "BUILD_DIR" = some "") →
      (initConfig cwd pwd env).build = cwd ++ "/.build") := by
  have hbdne : jsOr (env "BUILD_DIR") ".build" ≠ "" := jsOr_build_ne _
  have hbuild : (initConfig cwd pwd env).build =
      pathJoin2 cwd (jsOr (env "BUILD_DIR") ".build") := rfl
  subst hcwd
  have heval := pathJoin2_eval csegs (jsOr (env "BUILD_DIR") ".build") hne hgood hbdne hbd
  refine ⟨rfl, ?_, ?_⟩
  · rw [hbuild, heval]
    by_cases hb : (splitSlash (jsOr (env "BUILD_DIR") ".build")).filter
        (fun s => !(s == "")) = []
    · left
      rw [hb]
      simp
    · right
      rw [joinSegs_append csegs _ hne hb]
      rw [List.isPrefixOf_iff_prefix]
      have hdata : ("/" ++ (joinSegs csegs ++ "/" ++
          joinSegs ((splitSlash (jsOr (env "BUILD_DIR") ".build")).filter
            (fun s => !(s == ""))))).data =
          ("/" ++ joinSegs csegs ++ "/").data ++
          (joinSegs ((splitSlash (jsOr (env "BUILD_DIR") ".build")).filter
            (fun s => !(s == "")))).data := by
        simp [String.data_append]
      rw [hdata]
      exact List.prefix_append _ _
  · intro h
    have hbd2 : jsOr (env "BUILD_DIR") ".build" = ".build" := by
      rcases h with h | h <;> simp [jsOr, h]
    rw [hbuild, heval, hbd2]
    have hfil : (splitSlash ".build").filter (fun s => !(s == "")) = [".build"] := by decide
    rw [hfil]
    rw [joinSegs_append csegs [".build"] hne (by simp)]
    rw [show joinSegs [".build"] = ".build" from rfl]
    have hassoc : ("/" ++ (joinSegs csegs ++ "/" ++ ".build") : String) =
        (("/" ++ joinSegs csegs) ++ ("/" ++ ".build") : String) := by
      simp [String.append_assoc]
    rw [hassoc]
    rfl

theorem build_rooted_amended_witness :
    rootedUnder "/a/b" ((initConfig "/a/b" "/p" envNone).build) ∧
    (initConfig "/a/b" "/p" envNone).build = "/a/b" ++ "/.build" := by
  obtain ⟨h1, h2, h3⟩ := build_rooted_amended "/a/b" "/p" ["a", "b"] envNone
    (by decide) (by decide) (by decide) (by decide)
  exact ⟨h2, h3 (Or.inl rfl)⟩
